import Mathlib

/-!
Verification of the videoauto timeline segmentation and synchronization core.

Times are modelled as exact rationals (seconds).  The Python sources operate
on `datetime.timedelta` values and floats obtained from `total_seconds()`;
all arithmetic performed by the code under verification is plain addition,
subtraction and comparison, which the rational model reflects exactly.

A subtitle cue has a start time, an end time and text.  The text plays no
role in any timing claim, so the model keeps only the two timestamps.
The Python attribute name is `end`; that word is reserved in Lean, so the
field is called `stop` here.
-/

/-- A subtitle cue: `srt.Subtitle` restricted to its two timestamps. -/
structure Cue where
  start : ℚ
  stop : ℚ
deriving DecidableEq

/-- A kept segment, as built by `parse_srt_segments`
(a Python dict with keys start and end). -/
structure Seg where
  start : ℚ
  stop : ℚ
deriving DecidableEq

/-- The sort key used by all three tools: `subs.sort(key=lambda x: x.start)`.
Python list.sort is a stable sort comparing only the keys, which is exactly
`List.mergeSort` with this comparator. -/
def cueLE (a b : Cue) : Bool := a.start ≤ b.start

/-- `subs.sort(key=lambda x: x.start)` from the sources. -/
def sortByStart (subs : List Cue) : List Cue := subs.mergeSort cueLE

/-!
Segment Merger, from `ffmpeg_cut_select.py` / `ffmpeg_cut_trim.py`
(`parse_srt_segments`, identical in both files).  The Python loop keeps a
list `segments` and mutates `segments[-1]`; the model folds over the cues
keeping the segments in reverse order, so the head of the accumulator is
`segments[-1]`.  The source hardcodes the gap threshold `0.5`; it is kept
as a parameter `G` here because the companion tool `srt_cut_sync.py`
exposes the same threshold as `max_gap` and the claims quantify over it.
-/

/-- One iteration of the loop body of `parse_srt_segments`:
if the accumulator is empty append a fresh segment, otherwise merge into
`segments[-1]` when `x.start - segments[-1].end < G`
(the merge assigns `segments[-1].end = x.end`), else append. -/
def mergeStep (G : ℚ) (segments : List Seg) (x : Cue) : List Seg :=
  match segments with
  | [] => [⟨x.start, x.stop⟩]
  | s :: rest =>
      if x.start - s.stop < G then ⟨s.start, x.stop⟩ :: rest
      else ⟨x.start, x.stop⟩ :: s :: rest

/-- The whole merging loop of `parse_srt_segments`, over an already sorted
cue list; result is in reverse order (head = last segment). -/
def mergeFold (G : ℚ) (subs : List Cue) : List Seg :=
  subs.foldl (mergeStep G) []

/-- `parse_srt_segments` from `ffmpeg_cut_select.py` (and, identically,
`ffmpeg_cut_trim.py`): sort the cues by start, then merge cues whose gap
to the previous segment is strictly below the threshold.  The `.reverse`
restores the emission order of the Python list. -/
def parse_srt_segments (G : ℚ) (subs : List Cue) : List Seg :=
  (mergeFold G (sortByStart subs)).reverse

/-- `total_duration = sum(seg["end"] - seg["start"] for seg in segments)`
from `cut_video` in `ffmpeg_cut_select.py` / `ffmpeg_cut_trim.py`. -/
def total_duration (segs : List Seg) : ℚ :=
  (segs.map fun s => s.stop - s.start).sum

/-!
Timeline Resynchronizer, from `srt_cut_sync.py` (`sync_srt`).
The loop carries the running `total_shift` and the previous cue.
-/

/-- One step of the shift accumulation in `sync_srt`: given the state
`(total_shift, previous cue)` and the next cue, add the gap
`sub.start - prev.end` to the shift exactly when `gap >= max_gap`. -/
def shiftStep (G : ℚ) (st : ℚ × Cue) (x : Cue) : ℚ × Cue :=
  (if G ≤ x.start - st.2.stop then st.1 + (x.start - st.2.stop) else st.1, x)

/-- The body of the `for` loop of `sync_srt` for the cues after the first:
thread the `(total_shift, prev)` state and emit each cue shifted by the
current cumulative shift. -/
def syncLoop (G : ℚ) : ℚ × Cue → List Cue → List Cue
  | _, [] => []
  | st, x :: rest =>
      let st2 := shiftStep G st x
      ⟨x.start - st2.1, x.stop - st2.1⟩ :: syncLoop G st2 rest

/-- `sync_srt` from `srt_cut_sync.py`, restricted to the timestamp
transformation: sort by start, initialize `total_shift` to the first
start (moving the first cue to 0), then run the loop.  File handling,
logging and text stripping are outside the timing model. -/
def sync_srt (G : ℚ) (subs : List Cue) : List Cue :=
  match sortByStart subs with
  | [] => []
  | first :: rest =>
      ⟨first.start - first.start, first.stop - first.start⟩ ::
        syncLoop G (first.start, first) rest

/-- The final cumulative shift accumulated by `sync_srt` over a cue list
(processed in the given order; `sync_srt` feeds it the sorted list). -/
def finalShift (G : ℚ) : List Cue → ℚ
  | [] => 0
  | first :: rest => (rest.foldl (shiftStep G) (first.start, first)).1

/-- `max(sub.end for sub in subs)` from `sync_srt` (0 for an empty list;
`sync_srt` returns early on empty input). -/
def maxEnd : List Cue → ℚ
  | [] => 0
  | c :: rest => rest.foldl (fun m x => max m x.stop) c.stop

/-- `saved = (original_end - new_end).total_seconds()` from `sync_srt`:
the total duration the resynchronizer reports as dropped. -/
def sync_saved (G : ℚ) (subs : List Cue) : ℚ :=
  maxEnd subs - maxEnd (sync_srt G subs)

/-- Stability helper: on a list already sorted by start, the sort of the
sources is the identity. -/
theorem sortByStart_of_sorted {l : List Cue}
    (h : List.Pairwise (fun a b => a.start ≤ b.start) l) :
    sortByStart l = l :=
  List.mergeSort_of_sorted (h.imp fun hab => decide_eq_true hab)

/-- The sort of the sources produces a list ordered by start. -/
theorem sortByStart_sorted (l : List Cue) :
    List.Pairwise (fun a b : Cue => a.start ≤ b.start) (sortByStart l) := by
  have := @List.sorted_mergeSort Cue cueLE
    (fun a b c hab hbc => decide_eq_true
      (le_trans (of_decide_eq_true hab) (of_decide_eq_true hbc)))
    (fun a b => by
      rcases le_total a.start b.start with h | h
      · simp [cueLE, h]
      · simp [cueLE, h]) l
  exact this.imp fun hab => of_decide_eq_true hab

/-- Sanity check: the end-to-end scenario of the spec, cues
`[(0,2), (2.3,4), (10,12)]` with `G = 1/2` give kept intervals
`[(0,4), (10,12)]`. -/
theorem parse_srt_segments_scenario :
    parse_srt_segments (1/2) [⟨0, 2⟩, ⟨23/10, 4⟩, ⟨10, 12⟩] =
      [⟨0, 4⟩, ⟨10, 12⟩] := by
  have hs : sortByStart [⟨0, 2⟩, ⟨23/10, 4⟩, ⟨10, 12⟩] =
      [(⟨0, 2⟩ : Cue), ⟨23/10, 4⟩, ⟨10, 12⟩] :=
    sortByStart_of_sorted (by norm_num)
  norm_num [parse_srt_segments, mergeFold, hs, mergeStep]

/-!
Structure of the merge fold.  After processing a nonempty cue sequence the
segment accumulator is nonempty and the end of `segments[-1]` is exactly
the end of the last processed cue: the merge branch assigns
`segments[-1].end = x.end` and the append branch writes `x.end` as well.
This is the bridge that makes the gap computed by the merger
(`x.start - segments[-1].end`) coincide with the gap computed by the
resynchronizer (`sub.start - subs[i-1].end`).
-/

theorem foldl_mergeStep_cons (G : ℚ) :
    ∀ (cs : List Cue) (c : Cue) (acc : List Seg),
      ∃ s rest, (c :: cs).foldl (mergeStep G) acc = s :: rest ∧
        s.stop = (cs.getLastD c).stop := by
  intro cs
  induction cs with
  | nil =>
      intro c acc
      match acc with
      | [] => exact ⟨⟨c.start, c.stop⟩, [], rfl, rfl⟩
      | s :: rest =>
          by_cases h : c.start - s.stop < G
          · exact ⟨⟨s.start, c.stop⟩, rest, by simp [mergeStep, h], rfl⟩
          · exact ⟨⟨c.start, c.stop⟩, s :: rest, by simp [mergeStep, h], rfl⟩
  | cons c2 cs2 ih =>
      intro c acc
      obtain ⟨s, rest, heq, hstop⟩ := ih c2 (mergeStep G acc c)
      exact ⟨s, rest, heq, by rw [hstop, List.getLastD_cons]⟩

/-- The second component of the shift-fold state is the last processed cue. -/
theorem foldl_shiftStep_snd (G : ℚ) :
    ∀ (rest : List Cue) (st : ℚ × Cue),
      (rest.foldl (shiftStep G) st).2 = rest.getLastD st.2 := by
  intro rest
  induction rest with
  | nil => intro st; rfl
  | cons x r ih =>
      intro st
      rw [List.foldl_cons, ih, List.getLastD_cons]
      rfl

/-- C1.  Boundary complementarity of the Segment Merger and the Timeline
Resynchronizer.  For any processed cue prefix `c :: cs` (in the common
sorted processing order) and next adjacent cue `x`, with
`gap = x.start - (last processed cue).end` — which by
`foldl_mergeStep_cons` is the same quantity as the merger's
`x.start - segments[-1].end` — the merger emits a new kept interval
exactly when `G ≤ gap` (so a gap equal to `G` is NOT merged, the merge
condition being strict `< G`), and the resynchronizer adds `gap` to its
cumulative shift in exactly the same case. -/
theorem merger_resync_boundary_complementary (G gap : ℚ) (c x : Cue)
    (cs : List Cue) (hgap : gap = x.start - (cs.getLastD c).stop) :
    (mergeFold G ((c :: cs) ++ [x])).length =
      (mergeFold G (c :: cs)).length + (if G ≤ gap then 1 else 0) ∧
    finalShift G ((c :: cs) ++ [x]) =
      finalShift G (c :: cs) + (if G ≤ gap then gap else 0) := by
  constructor
  · obtain ⟨s, rest, heq, hstop⟩ := foldl_mergeStep_cons G cs c []
    have hfold : mergeFold G ((c :: cs) ++ [x]) =
        mergeStep G (mergeFold G (c :: cs)) x := by
      simp [mergeFold, List.foldl_append]
    rw [hfold, mergeFold, heq, mergeStep]
    have hg : x.start - s.stop = gap := by rw [hstop, hgap]
    by_cases h : G ≤ gap
    · rw [if_neg (by rw [hg]; exact not_lt.mpr h), if_pos h]
      simp
    · rw [if_pos (by rw [hg]; exact lt_of_not_ge h), if_neg h]
      simp
  · have hfold : ((cs ++ [x]).foldl (shiftStep G) (c.start, c)) =
        shiftStep G (cs.foldl (shiftStep G) (c.start, c)) x := by
      rw [List.foldl_append, List.foldl_cons, List.foldl_nil]
    have hsnd := foldl_shiftStep_snd G cs (c.start, c)
    show ((cs ++ [x]).foldl (shiftStep G) (c.start, c)).1 = _
    rw [hfold, shiftStep]
    by_cases h : G ≤ gap
    · rw [if_pos (by rw [hsnd]; rw [hgap] at h; exact h), if_pos h]
      simp [hsnd, hgap, finalShift]
    · rw [if_neg (by rw [hsnd]; rw [hgap] at h; exact h), if_neg h]
      simp [finalShift]

/-- Witness for C1 at the concrete boundary `gap = 1`, `G = 1/2`:
cues `(0,2)` then `(3,4)`. -/
theorem merger_resync_boundary_complementary_witness :
    (mergeFold (1/2) (([⟨0, 2⟩] : List Cue) ++ [⟨3, 4⟩])).length =
      (mergeFold (1/2) ([⟨0, 2⟩] : List Cue)).length +
        (if (1 : ℚ)/2 ≤ 1 then 1 else 0) ∧
    finalShift (1/2) (([⟨0, 2⟩] : List Cue) ++ [⟨3, 4⟩]) =
      finalShift (1/2) ([⟨0, 2⟩] : List Cue) +
        (if (1 : ℚ)/2 ≤ 1 then 1 else 0) :=
  merger_resync_boundary_complementary (1/2) 1 ⟨0, 2⟩ ⟨3, 4⟩ []
    (by norm_num [List.getLastD])

/-!
Claim C2 compares the source merger against the rule written in the spec:
"extend current.end = max(current.end, cue.end)".  Source reference for
comparison (refinement): the following definitions follow the words of the
spec, not the code, and are only used to compare with
`parse_srt_segments`.
-/

/-- The merge step as the spec words it: the merge branch extends the
current end to `max(current.end, cue.end)` instead of assigning
`cue.end`. -/
def mergeStepSpec (G : ℚ) (segments : List Seg) (x : Cue) : List Seg :=
  match segments with
  | [] => [⟨x.start, x.stop⟩]
  | s :: rest =>
      if x.start - s.stop < G then ⟨s.start, max s.stop x.stop⟩ :: rest
      else ⟨x.start, x.stop⟩ :: s :: rest

/-- The Segment Merger as the spec words it (max-extension rule). -/
def parse_srt_segments_spec (G : ℚ) (subs : List Cue) : List Seg :=
  ((sortByStart subs).foldl (mergeStepSpec G) []).reverse

/-- Counterexample to C2 as stated: for the sorted cue list
`[(0,10), (1,2)]` the second cue is merged (gap `1 - 10 < 1/2`) and the
code assigns `end = 2`, shrinking the interval, while the claimed max rule
would keep `end = 10`. -/
theorem merger_end_not_max_counterexample :
    parse_srt_segments (1/2) [⟨0, 10⟩, ⟨1, 2⟩] ≠
      parse_srt_segments_spec (1/2) [⟨0, 10⟩, ⟨1, 2⟩] ∧
    parse_srt_segments (1/2) [⟨0, 10⟩, ⟨1, 2⟩] = [⟨0, 2⟩] ∧
    parse_srt_segments_spec (1/2) [⟨0, 10⟩, ⟨1, 2⟩] = [⟨0, 10⟩] := by
  have hs : sortByStart [⟨0, 10⟩, ⟨1, 2⟩] = [(⟨0, 10⟩ : Cue), ⟨1, 2⟩] :=
    sortByStart_of_sorted (by norm_num)
  refine ⟨?_, ?_, ?_⟩ <;>
    norm_num [parse_srt_segments, parse_srt_segments_spec, mergeFold, hs,
      mergeStep, mergeStepSpec, Seg.mk.injEq]

/-- Helper for the amended C2: when the cue ends are non-decreasing along
the processing order, the assignment `end = cue.end` of the code and the
max rule of the spec produce the same fold, because the current end is
always the previous cue end, which the next merged cue end dominates. -/
theorem foldl_merge_eq_spec (G : ℚ) :
    ∀ (cs : List Cue) (prev : Cue) (s : Seg) (racc : List Seg),
      s.stop = prev.stop →
      List.Chain' (fun a b => a.stop ≤ b.stop) (prev :: cs) →
      cs.foldl (mergeStep G) (s :: racc) =
        cs.foldl (mergeStepSpec G) (s :: racc) := by
  intro cs
  induction cs with
  | nil => intro prev s racc _ _; rfl
  | cons x cs2 ih =>
      intro prev s racc hstop hchain
      have hle : s.stop ≤ x.stop := by
        rw [hstop]
        exact (List.chain'_cons.mp hchain).1
      have htail : List.Chain' (fun a b => a.stop ≤ b.stop) (x :: cs2) :=
        (List.chain'_cons.mp hchain).2
      rw [List.foldl_cons, List.foldl_cons]
      by_cases h : x.start - s.stop < G
      · have hstep : mergeStep G (s :: racc) x = ⟨s.start, x.stop⟩ :: racc := by
          simp [mergeStep, h]
        have hstepSpec : mergeStepSpec G (s :: racc) x =
            ⟨s.start, x.stop⟩ :: racc := by
          simp [mergeStepSpec, h, max_eq_right hle]
        rw [hstep, hstepSpec]
        exact ih x ⟨s.start, x.stop⟩ racc rfl htail
      · have hstep : mergeStep G (s :: racc) x =
            ⟨x.start, x.stop⟩ :: s :: racc := by
          simp [mergeStep, h]
        have hstepSpec : mergeStepSpec G (s :: racc) x =
            ⟨x.start, x.stop⟩ :: s :: racc := by
          simp [mergeStepSpec, h]
        rw [hstep, hstepSpec]
        exact ih x ⟨x.start, x.stop⟩ (s :: racc) rfl htail

/-- C2 amended.  The merge branch assigns `current.end = cue.end` (not the
max).  For every cue list that is sorted by start and whose ends are also
non-decreasing in that order (no cue nested inside an earlier one), the
assignment agrees with the max rule of the spec, so every emitted kept
interval end is the maximum cue end of its group; on nested cues the two
rules differ as the counterexample shows. -/
theorem merger_end_max_of_monotone_ends (G : ℚ) (l : List Cue)
    (hsorted : List.Pairwise (fun a b => a.start ≤ b.start) l)
    (hstops : List.Pairwise (fun a b => a.stop ≤ b.stop) l) :
    parse_srt_segments G l = parse_srt_segments_spec G l := by
  rw [parse_srt_segments, parse_srt_segments_spec, mergeFold,
    sortByStart_of_sorted hsorted]
  match l, hstops with
  | [], _ => rfl
  | c :: cs, hstops =>
      rw [List.foldl_cons, List.foldl_cons]
      have hchain : List.Chain' (fun a b : Cue => a.stop ≤ b.stop) (c :: cs) :=
        hstops.chain'
      rw [show mergeStep G [] c = [⟨c.start, c.stop⟩] from rfl,
        show mergeStepSpec G [] c = [⟨c.start, c.stop⟩] from rfl,
        foldl_merge_eq_spec G cs c ⟨c.start, c.stop⟩ [] rfl hchain]

/-- Witness for the amended C2 on the sorted, end-monotone list
`[(0,2),(1,3)]`. -/
theorem merger_end_max_of_monotone_ends_witness :
    parse_srt_segments (1/2) [⟨0, 2⟩, ⟨1, 3⟩] =
      parse_srt_segments_spec (1/2) [⟨0, 2⟩, ⟨1, 3⟩] :=
  merger_end_max_of_monotone_ends (1/2) [⟨0, 2⟩, ⟨1, 3⟩]
    (by norm_num) (by norm_num)

/-!
Kept-interval invariants (claims C7 and C9).
-/

/-- Well-formedness of a single interval: positive duration. -/
def SegWF (s : Seg) : Prop := s.start < s.stop

/-- The ordering relation claimed for consecutive kept intervals:
non-overlapping and strictly increasing by start. -/
def KeptDisjoint (a b : Seg) : Prop := a.stop ≤ b.start ∧ a.start < b.start

/-- Counterexample to C7 as stated for arbitrary cue lists: the single
malformed cue `(5,3)` (start above end) is passed through unchanged, so
the emitted interval violates `end > start`. -/
theorem kept_invariant_counterexample :
    ¬ ((parse_srt_segments (1/2) [⟨5, 3⟩]).Pairwise KeptDisjoint ∧
        (parse_srt_segments (1/2) [⟨5, 3⟩]).Forall SegWF) := by
  have hs : sortByStart [⟨5, 3⟩] = [(⟨5, 3⟩ : Cue)] :=
    sortByStart_of_sorted (by norm_num)
  rintro ⟨-, hforall⟩
  rw [parse_srt_segments, mergeFold, hs] at hforall
  simp [mergeStep, List.Forall, SegWF] at hforall
  norm_num at hforall

/-- Fold invariant for the merger: processing start-sorted, well-formed
cues keeps the (reversed) accumulator pairwise disjoint with strictly
decreasing starts towards the head, all intervals of positive duration,
the head start at most the previous cue start and the head end equal to
the previous cue end. -/
theorem foldl_mergeStep_invariant (G : ℚ) (hG : 0 ≤ G) :
    ∀ (cs : List Cue) (prev : Cue) (s : Seg) (racc : List Seg),
      s.start ≤ prev.start → s.stop = prev.stop →
      List.Chain' (fun a b : Cue => a.start ≤ b.start) (prev :: cs) →
      (∀ c ∈ prev :: cs, c.start < c.stop) →
      List.Pairwise (fun a b => KeptDisjoint b a) (s :: racc) →
      (∀ t ∈ racc, SegWF t) →
      List.Pairwise (fun a b => KeptDisjoint b a)
          (cs.foldl (mergeStep G) (s :: racc)) ∧
        ∀ t ∈ cs.foldl (mergeStep G) (s :: racc), SegWF t := by
  intro cs
  induction cs with
  | nil =>
      intro prev s racc hstart hstop _hchain hwf hpw hwfr
      refine ⟨hpw, ?_⟩
      intro t ht
      rcases List.mem_cons.mp ht with h | h
      · subst h
        exact lt_of_le_of_lt hstart (hstop ▸ hwf prev (by simp))
      · exact hwfr t h
  | cons x cs2 ih =>
      intro prev s racc hstart hstop hchain hwf hpw hwfr
      have hxstart : prev.start ≤ x.start := (List.chain'_cons.mp hchain).1
      have hchain2 : List.Chain' (fun a b : Cue => a.start ≤ b.start)
          (x :: cs2) := (List.chain'_cons.mp hchain).2
      have hwf2 : ∀ c ∈ x :: cs2, c.start < c.stop := by
        intro c hc; exact hwf c (List.mem_cons_of_mem _ hc)
      have hswf : SegWF s :=
        lt_of_le_of_lt hstart (hstop ▸ hwf prev (by simp))
      have hpw' := List.pairwise_cons.mp hpw
      rw [List.foldl_cons]
      by_cases h : x.start - s.stop < G
      · have hstep : mergeStep G (s :: racc) x = ⟨s.start, x.stop⟩ :: racc := by
          simp [mergeStep, h]
        rw [hstep]
        refine ih x ⟨s.start, x.stop⟩ racc ?_ rfl hchain2 hwf2 ?_ hwfr
        · exact le_trans hstart hxstart
        · exact List.pairwise_cons.mpr ⟨fun t ht => hpw'.1 t ht, hpw'.2⟩
      · have hgap : s.stop ≤ x.start := by
          have := not_lt.mp h
          linarith
        have hstep : mergeStep G (s :: racc) x =
            ⟨x.start, x.stop⟩ :: s :: racc := by
          simp [mergeStep, h]
        rw [hstep]
        refine ih x ⟨x.start, x.stop⟩ (s :: racc) le_rfl rfl hchain2 hwf2 ?_ ?_
        · refine List.pairwise_cons.mpr ⟨?_, hpw⟩
          intro t ht
          rcases List.mem_cons.mp ht with h' | h'
          · subst h'
            exact ⟨hgap, lt_of_lt_of_le hswf hgap⟩
          · obtain ⟨ht1, ht2⟩ := hpw'.1 t h'
            exact ⟨le_trans ht1 (le_trans (le_of_lt hswf) hgap),
              lt_of_lt_of_le ht2 (lt_of_lt_of_le hswf hgap).le⟩
        · intro t ht
          rcases List.mem_cons.mp ht with h' | h'
          · subst h'; exact hswf
          · exact hwfr t h'

/-- C7 amended.  For a nonnegative gap threshold and any cue list whose
cues are all well formed (`start < end`), the kept intervals emitted by
the merger are pairwise non-overlapping, strictly increasing by start,
and each has `end > start`.  For arbitrary (malformed) cue lists the
invariant fails, as the counterexample shows. -/
theorem kept_intervals_invariant (G : ℚ) (l : List Cue) (hG : 0 ≤ G)
    (hwf : l.Forall fun c => c.start < c.stop) :
    (parse_srt_segments G l).Pairwise KeptDisjoint ∧
      (parse_srt_segments G l).Forall SegWF := by
  have hwf' : ∀ c ∈ sortByStart l, c.start < c.stop := by
    intro c hc
    exact (List.forall_iff_forall_mem.mp hwf) c
      ((List.mergeSort_perm l cueLE).mem_iff.mp hc)
  have hsorted : List.Pairwise (fun a b : Cue => a.start ≤ b.start)
      (sortByStart l) := sortByStart_sorted l
  rw [parse_srt_segments]
  match hsl : sortByStart l with
  | [] => simp [mergeFold, List.Forall]
  | c :: cs =>
      rw [hsl] at hwf' hsorted
      have hres := foldl_mergeStep_invariant G hG cs c ⟨c.start, c.stop⟩ []
        le_rfl rfl hsorted.chain' hwf' (List.pairwise_singleton _ _)
        (by simp)
      have hfold : mergeFold G (c :: cs) =
          cs.foldl (mergeStep G) [⟨c.start, c.stop⟩] := by
        simp [mergeFold, mergeStep]
      rw [hfold]
      refine ⟨List.pairwise_reverse.mpr hres.1, ?_⟩
      rw [List.forall_iff_forall_mem]
      intro t ht
      exact hres.2 t (List.mem_reverse.mp ht)

/-- Witness for the amended C7 on the well-formed list
`[(0,1),(4,5),(2,3)]` (unsorted on purpose; the merger sorts). -/
theorem kept_intervals_invariant_witness :
    (parse_srt_segments (1/2) [⟨0, 1⟩, ⟨4, 5⟩, ⟨2, 3⟩]).Pairwise KeptDisjoint ∧
      (parse_srt_segments (1/2) [⟨0, 1⟩, ⟨4, 5⟩, ⟨2, 3⟩]).Forall SegWF :=
  kept_intervals_invariant (1/2) [⟨0, 1⟩, ⟨4, 5⟩, ⟨2, 3⟩] (by norm_num)
    (by norm_num [List.Forall])

/-- C9.  The merger performs no validation: a degenerate cue with
`start = end` (zero duration, `start >= end`) is not rejected — no
`InvalidCueError` exists anywhere in the sources — and the zero-length
interval is emitted as kept output. -/
theorem degenerate_cue_not_rejected :
    parse_srt_segments (1/2) [⟨3, 3⟩] = [⟨3, 3⟩] := by
  have hs : sortByStart [⟨3, 3⟩] = [(⟨3, 3⟩ : Cue)] :=
    sortByStart_of_sorted (by norm_num)
  simp [parse_srt_segments, mergeFold, hs, mergeStep]

/-!
Claim C8: order invariance of the merger output before sorting.
-/

/-- Counterexample to C8 as stated: the two orders of the multiset
`{(0,1), (0,5)}` (equal starts) are a permutation of each other, yet the
stable sort keyed only on start preserves the tie order, so the merger
output differs: `[(0,5)]` versus `[(0,1)]`. -/
theorem merger_order_sensitive_counterexample :
    ([⟨0, 1⟩, ⟨0, 5⟩] : List Cue).Perm [⟨0, 5⟩, ⟨0, 1⟩] ∧
      parse_srt_segments (1/2) [⟨0, 1⟩, ⟨0, 5⟩] ≠
        parse_srt_segments (1/2) [⟨0, 5⟩, ⟨0, 1⟩] := by
  constructor
  · exact List.Perm.swap _ _ _
  · have h1 : sortByStart [⟨0, 1⟩, ⟨0, 5⟩] = [(⟨0, 1⟩ : Cue), ⟨0, 5⟩] :=
      sortByStart_of_sorted (by norm_num)
    have h2 : sortByStart [⟨0, 5⟩, ⟨0, 1⟩] = [(⟨0, 5⟩ : Cue), ⟨0, 1⟩] :=
      sortByStart_of_sorted (by norm_num)
    norm_num [parse_srt_segments, mergeFold, h1, h2, mergeStep, Seg.mk.injEq]

/-- C8 amended.  When no two cues share a start time, the merger output
depends only on the multiset of cues: any two permutations of the same
cues produce identical kept intervals.  With duplicated starts the stable
sort preserves input order among ties and the output can differ, as the
counterexample shows. -/
theorem merger_perm_invariant_of_distinct_starts (G : ℚ)
    (l1 l2 : List Cue) (hperm : l1.Perm l2)
    (hnd : (l1.map Cue.start).Nodup) :
    parse_srt_segments G l1 = parse_srt_segments G l2 := by
  suffices h : sortByStart l1 = sortByStart l2 by
    rw [parse_srt_segments, parse_srt_segments, h]
  haveI : IsAntisymm Cue fun a b => a.start < b.start :=
    ⟨fun a b h1 h2 => absurd (lt_trans h1 h2) (lt_irrefl _)⟩
  have hp1 : (sortByStart l1).Perm l1 := List.mergeSort_perm l1 cueLE
  have hp2 : (sortByStart l2).Perm l2 := List.mergeSort_perm l2 cueLE
  have hps : (sortByStart l1).Perm (sortByStart l2) :=
    (hp1.trans hperm).trans hp2.symm
  have hstrict : ∀ l : List Cue, (l.map Cue.start).Nodup →
      List.Pairwise (fun a b : Cue => a.start < b.start) (sortByStart l) := by
    intro l hl
    have hnds : ((sortByStart l).map Cue.start).Nodup :=
      ((List.mergeSort_perm l cueLE).map Cue.start).nodup_iff.mpr hl
    have hne : List.Pairwise (fun a b : Cue => a.start ≠ b.start)
        (sortByStart l) := List.pairwise_map.mp hnds
    exact ((sortByStart_sorted l).and hne).imp
      fun h => lt_of_le_of_ne h.1 h.2
  exact List.eq_of_perm_of_sorted hps
    (hstrict l1 hnd)
    (hstrict l2 (((hperm.map Cue.start).nodup_iff).mp hnd))

/-- Witness for the amended C8: `[(0,1),(3,4)]` and its reversal. -/
theorem merger_perm_invariant_witness :
    parse_srt_segments (1/2) [⟨0, 1⟩, ⟨3, 4⟩] =
      parse_srt_segments (1/2) [⟨3, 4⟩, ⟨0, 1⟩] :=
  merger_perm_invariant_of_distinct_starts (1/2) [⟨0, 1⟩, ⟨3, 4⟩]
    [⟨3, 4⟩, ⟨0, 1⟩] (List.Perm.swap _ _ _) (by norm_num)

/-!
Claim C5: consistency between the duration dropped by the resynchronizer
and the duration kept by the merger.
-/

/-- Telescoping identity between the merger fold and the shift fold: the
kept duration gained while processing `rest` equals the growth of
`(last end) - (total shift)`.  Pure algebra of the two folds; needs only
that the current segment end equals the previous cue end. -/
theorem foldl_merge_shift_identity (G : ℚ) :
    ∀ (rest : List Cue) (prev : Cue) (t : ℚ) (s : Seg) (racc : List Seg),
      s.stop = prev.stop →
      total_duration (rest.foldl (mergeStep G) (s :: racc)) -
          total_duration (s :: racc) =
        ((rest.getLastD prev).stop - (rest.foldl (shiftStep G) (t, prev)).1) -
          (prev.stop - t) := by
  intro rest
  induction rest with
  | nil =>
      intro prev t s racc hstop
      simp [List.getLastD]
  | cons x rest2 ih =>
      intro prev t s racc hstop
      rw [List.foldl_cons, List.foldl_cons, List.getLastD_cons]
      by_cases h : x.start - s.stop < G
      · have hshift : shiftStep G (t, prev) x = (t, x) := by
          have : ¬ G ≤ x.start - prev.stop := by rw [← hstop]; linarith
          simp [shiftStep, this]
        have hstep : mergeStep G (s :: racc) x = ⟨s.start, x.stop⟩ :: racc := by
          simp [mergeStep, h]
        rw [hshift, hstep]
        have := ih x t ⟨s.start, x.stop⟩ racc rfl
        simp only [total_duration, List.map_cons, List.sum_cons] at this ⊢
        linarith
      · have hshift : shiftStep G (t, prev) x =
            (t + (x.start - prev.stop), x) := by
          have : G ≤ x.start - prev.stop := by rw [← hstop]; linarith
          simp [shiftStep, this]
        have hstep : mergeStep G (s :: racc) x =
            ⟨x.start, x.stop⟩ :: s :: racc := by
          simp [mergeStep, h]
        rw [hshift, hstep]
        have := ih x (t + (x.start - prev.stop)) ⟨x.start, x.stop⟩ (s :: racc) rfl
        simp only [total_duration, List.map_cons, List.sum_cons] at this ⊢
        linarith

/-- On a list whose ends are non-decreasing, the running maximum of the
ends is the last end. -/
theorem maxEnd_eq_getLastD_stop :
    ∀ (cs : List Cue) (c : Cue),
      List.Chain' (fun a b : Cue => a.stop ≤ b.stop) (c :: cs) →
      maxEnd (c :: cs) = (cs.getLastD c).stop := by
  intro cs
  induction cs with
  | nil => intro c _; rfl
  | cons x cs2 ih =>
      intro c hchain
      have h1 : c.stop ≤ x.stop := (List.chain'_cons.mp hchain).1
      have h2 := (List.chain'_cons.mp hchain).2
      have : maxEnd (c :: x :: cs2) = maxEnd (x :: cs2) := by
        simp only [maxEnd, List.foldl_cons, max_eq_right h1]
      rw [this, ih x h2, List.getLastD_cons]

/-- The resynchronized cues have non-decreasing ends (given original
non-decreasing ends and nonnegative cue durations), and the last
resynchronized end is the last original end minus the final shift. -/
theorem syncLoop_stats (G : ℚ) :
    ∀ (rest : List Cue) (t : ℚ) (prev : Cue),
      List.Chain' (fun a b : Cue => a.stop ≤ b.stop) (prev :: rest) →
      (∀ c ∈ rest, c.start ≤ c.stop) →
      List.Chain' (fun a b : Cue => a.stop ≤ b.stop)
          (⟨prev.start - t, prev.stop - t⟩ :: syncLoop G (t, prev) rest) ∧
        ((syncLoop G (t, prev) rest).getLastD
            ⟨prev.start - t, prev.stop - t⟩).stop =
          (rest.getLastD prev).stop - (rest.foldl (shiftStep G) (t, prev)).1 := by
  intro rest
  induction rest with
  | nil =>
      intro t prev _ _
      exact ⟨List.chain'_singleton _, by simp [syncLoop, List.getLastD]⟩
  | cons x rest2 ih =>
      intro t prev hchain hwf
      have hstops : prev.stop ≤ x.stop := (List.chain'_cons.mp hchain).1
      have hchain2 := (List.chain'_cons.mp hchain).2
      have hwf2 : ∀ c ∈ rest2, c.start ≤ c.stop :=
        fun c hc => hwf c (List.mem_cons_of_mem _ hc)
      have hwfx : x.start ≤ x.stop := hwf x (by simp)
      by_cases hc : G ≤ x.start - prev.stop
      · have hshift : shiftStep G (t, prev) x =
            (t + (x.start - prev.stop), x) := by simp [shiftStep, hc]
        have hunfold : syncLoop G (t, prev) (x :: rest2) =
            ⟨x.start - (t + (x.start - prev.stop)),
              x.stop - (t + (x.start - prev.stop))⟩ ::
              syncLoop G (t + (x.start - prev.stop), x) rest2 := by
          simp only [syncLoop, hshift]
        obtain ⟨ihchain, ihlast⟩ := ih (t + (x.start - prev.stop)) x
          hchain2 hwf2
        rw [hunfold]
        constructor
        · exact List.chain'_cons.mpr ⟨by simp; linarith, ihchain⟩
        · rw [List.getLastD_cons, ihlast, List.getLastD_cons,
            List.foldl_cons, hshift]
      · have hshift : shiftStep G (t, prev) x = (t, x) := by
          simp [shiftStep, hc]
        have hunfold : syncLoop G (t, prev) (x :: rest2) =
            ⟨x.start - t, x.stop - t⟩ :: syncLoop G (t, x) rest2 := by
          simp only [syncLoop, hshift]
        obtain ⟨ihchain, ihlast⟩ := ih t x hchain2 hwf2
        rw [hunfold]
        constructor
        · exact List.chain'_cons.mpr ⟨by simp; linarith, ihchain⟩
        · rw [List.getLastD_cons, ihlast, List.getLastD_cons,
            List.foldl_cons, hshift]

/-- Counterexample to C5 as stated for arbitrary cue lists: with the
nested cue `(1,2)` inside `(0,100)`, the resynchronizer computes both the
original and the new end as a max over ends and reports `saved = 0`, while
the merger keeps only `[(0,2), (50,51)]`, so
`original - kept = 100 - 3 = 97`. -/
theorem resync_drop_counterexample :
    sync_saved (1/2) [⟨0, 100⟩, ⟨1, 2⟩, ⟨50, 51⟩] ≠
      maxEnd [⟨0, 100⟩, ⟨1, 2⟩, ⟨50, 51⟩] -
        total_duration (parse_srt_segments (1/2) [⟨0, 100⟩, ⟨1, 2⟩, ⟨50, 51⟩]) := by
  have hs : sortByStart [⟨0, 100⟩, ⟨1, 2⟩, ⟨50, 51⟩] =
      [(⟨0, 100⟩ : Cue), ⟨1, 2⟩, ⟨50, 51⟩] :=
    sortByStart_of_sorted (by norm_num)
  norm_num [sync_saved, sync_srt, hs, syncLoop, shiftStep, maxEnd,
    parse_srt_segments, mergeFold, mergeStep, total_duration]

/-- C5 amended.  For a nonempty cue list sorted by start whose ends are
also non-decreasing and whose cues have nonnegative duration, the duration
the resynchronizer drops (original end minus new end, both computed as the
max over cue ends, which under these hypotheses is the last end) equals
the original end minus the total kept duration of the merger, for the same
threshold.  On nested cues the max-based computation breaks the identity,
as the counterexample shows. -/
theorem resync_drop_consistency (G : ℚ) (subs : List Cue)
    (hne : subs ≠ [])
    (hsorted : List.Pairwise (fun a b : Cue => a.start ≤ b.start) subs)
    (hstops : List.Pairwise (fun a b : Cue => a.stop ≤ b.stop) subs)
    (hwf : subs.Forall fun c => c.start ≤ c.stop) :
    sync_saved G subs =
      maxEnd subs - total_duration (parse_srt_segments G subs) := by
  match subs, hne with
  | first :: rest, _ =>
      have hsort : sortByStart (first :: rest) = first :: rest :=
        sortByStart_of_sorted hsorted
      have hchain : List.Chain' (fun a b : Cue => a.stop ≤ b.stop)
          (first :: rest) := hstops.chain'
      have hwfm : ∀ c ∈ rest, c.start ≤ c.stop := fun c hc =>
        List.forall_iff_forall_mem.mp hwf c (List.mem_cons_of_mem _ hc)
      -- total kept duration equals last end minus final shift
      have hkept : total_duration (parse_srt_segments G (first :: rest)) =
          (rest.getLastD first).stop -
            (rest.foldl (shiftStep G) (first.start, first)).1 := by
        have hrev : total_duration
            ((mergeFold G (first :: rest)).reverse) =
            total_duration (mergeFold G (first :: rest)) := by
          simp [total_duration, List.map_reverse, List.sum_reverse]
        rw [parse_srt_segments, hsort, hrev, mergeFold, List.foldl_cons]
        have hid := foldl_merge_shift_identity G rest first first.start
          ⟨first.start, first.stop⟩ [] rfl
        have hinit : mergeStep G [] first = [⟨first.start, first.stop⟩] := rfl
        rw [hinit]
        simp only [total_duration, List.map_cons, List.map_nil,
          List.sum_cons, List.sum_nil] at hid ⊢
        linarith
      -- the new end computed by the resynchronizer
      obtain ⟨hsyncchain, hsynclast⟩ :=
        syncLoop_stats G rest first.start first hchain hwfm
      have hnew : maxEnd (sync_srt G (first :: rest)) =
          (rest.getLastD first).stop -
            (rest.foldl (shiftStep G) (first.start, first)).1 := by
        rw [sync_srt, hsort]
        have := maxEnd_eq_getLastD_stop
          (syncLoop G (first.start, first) rest)
          ⟨first.start - first.start, first.stop - first.start⟩ hsyncchain
        rw [this, hsynclast]
      have horig : maxEnd (first :: rest) = (rest.getLastD first).stop :=
        maxEnd_eq_getLastD_stop rest first hchain
      rw [sync_saved, hnew, horig, hkept]

/-- Witness for the amended C5 on `[(0,1),(2,3)]` with `G = 1/2`. -/
theorem resync_drop_consistency_witness :
    sync_saved (1/2) [⟨0, 1⟩, ⟨2, 3⟩] =
      maxEnd [⟨0, 1⟩, ⟨2, 3⟩] -
        total_duration (parse_srt_segments (1/2) [⟨0, 1⟩, ⟨2, 3⟩]) :=
  resync_drop_consistency (1/2) [⟨0, 1⟩, ⟨2, 3⟩] (by simp)
    (by norm_num) (by norm_num) (by norm_num [List.Forall])

/-!
Duration-Matching Synthesizer, from `srt_to_voice.py`.

`ffmpeg_speedup` decomposes the required speed ratio into a chain of
atempo stages: a factor `2.0` is emitted while the remainder exceeds
`2.0`, a factor `0.5` while it is below `0.5`, and finally the exact
remainder.  The source serializes the last stage with five decimal
digits (`f"atempo={remain:.5f}"`); the model keeps the exact rational
remainder, which is within the formatting tolerance the claim allows.
The source loop `while remain < 0.5` never tests positivity and
diverges for `remain <= 0`; the model adds `0 < r` to that guard, which
agrees with the source on every positive ratio (the only ones the claim
concerns).
-/

/-- Measure step for the decomposition loops. -/
theorem ceil_half_lt {x : ℚ} (hx : 2 < x) : ⌈x / 2⌉₊ < ⌈x⌉₊ := by
  have hle : x ≤ (⌈x⌉₊ : ℚ) := Nat.le_ceil x
  have hn : 3 ≤ ⌈x⌉₊ := by
    by_contra h
    push_neg at h
    have : ((⌈x⌉₊ : ℕ) : ℚ) ≤ 2 := by
      have : ⌈x⌉₊ ≤ 2 := by omega
      exact_mod_cast this
    linarith
  have hcast : (3 : ℚ) ≤ (⌈x⌉₊ : ℚ) := by exact_mod_cast hn
  have h2 : ⌈x / 2⌉₊ ≤ ⌈x⌉₊ - 1 := by
    apply Nat.ceil_le.mpr
    rw [Nat.cast_sub (by omega)]
    push_cast
    linarith
  omega

/-- The loop `while remain > 2.0: append 2.0; remain /= 2.0` of
`ffmpeg_speedup`: returns the emitted factors and the final remainder. -/
def speedupHigh (r : ℚ) : List ℚ × ℚ :=
  if h : 2 < r then
    let p := speedupHigh (r / 2)
    (2 :: p.1, p.2)
  else ([], r)
termination_by ⌈r⌉₊
decreasing_by exact ceil_half_lt h

theorem ceil_inv_double_lt {r : ℚ} (h0 : 0 < r) (hr : r < 1/2) :
    ⌈(r * 2)⁻¹⌉₊ < ⌈r⁻¹⌉₊ := by
  have h2 : 2 < r⁻¹ := by
    rw [← one_div, lt_div_iff₀ h0]
    linarith
  have heq : (r * 2)⁻¹ = r⁻¹ / 2 := by
    rw [mul_inv]
    ring
  rw [heq]
  exact ceil_half_lt h2

/-- The loop `while remain < 0.5: append 0.5; remain /= 0.5` of
`ffmpeg_speedup` (dividing by 0.5 doubles the remainder).  The guard
carries the extra `0 < r`, see the section comment. -/
def speedupLow (r : ℚ) : List ℚ × ℚ :=
  if h : 0 < r ∧ r < 1/2 then
    let p := speedupLow (r * 2)
    ((1/2) :: p.1, p.2)
  else ([], r)
termination_by ⌈r⁻¹⌉₊
decreasing_by exact ceil_inv_double_lt h.1 h.2

/-- The full atempo stage list built by `ffmpeg_speedup` for a speed
ratio: the 2.0 factors, then the 0.5 factors, then the exact remainder. -/
def atempo_filters (speed : ℚ) : List ℚ :=
  (speedupHigh speed).1 ++ (speedupLow (speedupHigh speed).2).1 ++
    [(speedupLow (speedupHigh speed).2).2]

/-- The valid single-pass range of the atempo stretcher. -/
def ValidStage (f : ℚ) : Prop := 1/2 ≤ f ∧ f ≤ 2

theorem speedupHigh_prod (r : ℚ) :
    ((speedupHigh r).1.prod) * (speedupHigh r).2 = r := by
  induction r using speedupHigh.induct with
  | case1 r h ih =>
      rw [speedupHigh]
      simp only [dif_pos h, List.prod_cons]
      have h2 : (2 : ℚ) * ((speedupHigh (r / 2)).1.prod *
          (speedupHigh (r / 2)).2) = 2 * (r / 2) := by rw [ih]
      push_cast at h2 ⊢
      linarith [h2]
  | case2 r h =>
      rw [speedupHigh]
      simp [h]

theorem speedupHigh_factors (r : ℚ) :
    ∀ f ∈ (speedupHigh r).1, f = 2 := by
  induction r using speedupHigh.induct with
  | case1 r h ih =>
      rw [speedupHigh]
      simp only [dif_pos h]
      intro f hf
      rcases List.mem_cons.mp hf with h' | h'
      · exact h'
      · exact ih f h'
  | case2 r h =>
      rw [speedupHigh]
      simp [h]

theorem speedupHigh_le (r : ℚ) : (speedupHigh r).2 ≤ 2 := by
  induction r using speedupHigh.induct with
  | case1 r h ih =>
      rw [speedupHigh]
      simpa [dif_pos h] using ih
  | case2 r h =>
      rw [speedupHigh]
      simp only [dif_neg h]
      exact le_of_not_lt h

theorem speedupHigh_pos (r : ℚ) (hr : 0 < r) : 0 < (speedupHigh r).2 := by
  induction r using speedupHigh.induct with
  | case1 r h ih =>
      rw [speedupHigh]
      simp only [dif_pos h]
      exact ih (by linarith)
  | case2 r h =>
      rw [speedupHigh]
      simpa [dif_neg h] using hr

theorem speedupLow_prod (r : ℚ) :
    ((speedupLow r).1.prod) * (speedupLow r).2 = r := by
  induction r using speedupLow.induct with
  | case1 r h ih =>
      rw [speedupLow]
      simp only [dif_pos h, List.prod_cons]
      have h2 : (1 / 2 : ℚ) * ((speedupLow (r * 2)).1.prod *
          (speedupLow (r * 2)).2) = (1 / 2) * (r * 2) := by rw [ih]
      push_cast at h2 ⊢
      linarith [h2]
  | case2 r h =>
      rw [speedupLow, dif_neg h]
      simp

theorem speedupLow_factors (r : ℚ) :
    ∀ f ∈ (speedupLow r).1, f = 1/2 := by
  induction r using speedupLow.induct with
  | case1 r h ih =>
      rw [speedupLow]
      simp only [dif_pos h]
      intro f hf
      rcases List.mem_cons.mp hf with h' | h'
      · exact h'
      · exact ih f h'
  | case2 r h =>
      rw [speedupLow, dif_neg h]
      simp

theorem speedupLow_bound (r : ℚ) (hr : 0 < r) :
    1/2 ≤ (speedupLow r).2 ∧ (speedupLow r).2 ≤ max r 1 := by
  induction r using speedupLow.induct with
  | case1 r h ih =>
      rw [speedupLow]
      simp only [dif_pos h]
      obtain ⟨ih1, ih2⟩ := ih (by linarith [h.1])
      refine ⟨ih1, le_trans ih2 ?_⟩
      have : max (r * 2) 1 = 1 := max_eq_right (by linarith [h.2])
      rw [this]
      exact le_max_right r 1
  | case2 r h =>
      rw [speedupLow]
      simp only [dif_neg h]
      have hge : 1/2 ≤ r := by
        by_contra hlt
        exact h ⟨hr, by linarith⟩
      exact ⟨hge, le_max_left r 1⟩

/-- C6.  For every speed ratio `r > 0` the stage decomposition of
`ffmpeg_speedup` terminates (the model is a total function, with the
measure arguments above), the product of the emitted atempo factors is
exactly `r`, and every factor lies in the valid range `[0.5, 2.0]`. -/
theorem atempo_decomposition (r : ℚ) (hr : 0 < r) :
    (atempo_filters r).prod = r ∧
      (atempo_filters r).Forall ValidStage := by
  have h1pos : 0 < (speedupHigh r).2 := speedupHigh_pos r hr
  have h1le : (speedupHigh r).2 ≤ 2 := speedupHigh_le r
  obtain ⟨hlo, hhi⟩ := speedupLow_bound (speedupHigh r).2 h1pos
  constructor
  · rw [atempo_filters]
    rw [List.prod_append, List.prod_append, List.prod_singleton, mul_assoc,
      speedupLow_prod, speedupHigh_prod]
  · rw [List.forall_iff_forall_mem]
    intro f hf
    rw [atempo_filters, List.append_assoc, List.mem_append] at hf
    rcases hf with hf | hf
    · rw [speedupHigh_factors r f hf]
      exact ⟨by norm_num, le_refl 2⟩
    · rw [List.mem_append] at hf
      rcases hf with hf | hf
      · rw [speedupLow_factors _ f hf]
        exact ⟨le_refl _, by norm_num⟩
      · rw [List.mem_singleton.mp hf]
        refine ⟨hlo, le_trans hhi ?_⟩
        exact max_le h1le (by norm_num)

/-- Witness for C6 at the ratio `5` of the spec duration scenario. -/
theorem atempo_decomposition_witness :
    (atempo_filters 5).prod = 5 ∧ (atempo_filters 5).Forall ValidStage :=
  atempo_decomposition 5 (by norm_num)

/-!
Millisecond domain of `srt_to_voice.py`.

pydub buffers measure length in integer milliseconds (`len(seg)`), so
buffer durations are modelled as integers, while cue timestamps stay
rational seconds and reach the millisecond domain through
`get_duration_ms`.  SRT timestamps carry millisecond precision, which the
`MsAligned` predicate expresses.
-/

/-- `get_duration_ms(td) = int(td.total_seconds() * 1000)` from
`srt_to_voice.py`.  Python `int()` truncates toward zero: floor for
nonnegative arguments, ceiling for negative ones. -/
def get_duration_ms (td : ℚ) : ℤ :=
  if 0 ≤ td then ⌊td * 1000⌋ else ⌈td * 1000⌉

/-- A timestamp that sits on the millisecond grid (the precision of the
SRT format). -/
def MsAligned (t : ℚ) : Prop := ∃ n : ℤ, t * 1000 = (n : ℚ)

theorem MsAligned.sub {a b : ℚ} (ha : MsAligned a) (hb : MsAligned b) :
    MsAligned (a - b) := by
  obtain ⟨m, hm⟩ := ha
  obtain ⟨n, hn⟩ := hb
  exact ⟨m - n, by push_cast; linarith⟩

theorem get_duration_ms_aligned {t : ℚ} (h : MsAligned t) :
    ((get_duration_ms t : ℤ) : ℚ) = t * 1000 := by
  obtain ⟨n, hn⟩ := h
  rw [get_duration_ms]
  split
  · rw [hn, Int.floor_intCast]
  · rw [hn, Int.ceil_intCast]

/-- Millisecond conversion is additive on grid-aligned durations. -/
theorem get_duration_ms_add {a b : ℚ} (ha : MsAligned a) (hb : MsAligned b) :
    get_duration_ms a + get_duration_ms b = get_duration_ms (a + b) := by
  have hab : MsAligned (a + b) := by
    obtain ⟨m, hm⟩ := ha
    obtain ⟨n, hn⟩ := hb
    exact ⟨m + n, by push_cast; linarith⟩
  have := get_duration_ms_aligned ha
  have := get_duration_ms_aligned hb
  have := get_duration_ms_aligned hab
  have hcast : ((get_duration_ms a + get_duration_ms b : ℤ) : ℚ) =
      ((get_duration_ms (a + b) : ℤ) : ℚ) := by
    push_cast
    linarith
  exact_mod_cast hcast

/-- Modelled from the spec: the external time-stretch stage invoked by
`ffmpeg_speedup` (the actual stretch is performed by the ffmpeg atempo
filter outside this repository).  Following section 4.5 of the spec, a
buffer of `len` milliseconds stretched at speed `s` comes back with
duration `len / s`, landed on the millisecond grid of pydub buffers. -/
def atempo_stretch_ms (len : ℤ) (speed : ℚ) : ℤ := ⌊(len : ℚ) / speed⌋

/-- The per-cue duration-matching logic of `srt_to_voice` (loop step 3),
expressed on durations: `Dr = len(seg)` of the rendered speech,
`Dtr = len(trim_silence(seg))`, `Dt = target_len`.  If `Dr > Dt` the
trimmed buffer is stretched at speed `Dtr / Dt` and hard-truncated to
`Dt` (`seg[:target_len]`, length `min`); otherwise the buffer is padded
with `target_len - len(seg)` of silence. -/
def process_cue_len (Dr Dtr Dt : ℤ) : ℤ :=
  if Dr > Dt then
    min (atempo_stretch_ms Dtr ((Dtr : ℚ) / (Dt : ℚ))) Dt
  else Dr + (Dt - Dr)

/-- Exactness of the duration matcher whenever the trimmed buffer is
nonempty: the stretch at speed `Dtr / Dt` lands exactly on `Dt` and the
truncation and padding absorb nothing further. -/
theorem process_cue_len_eq_target {Dr Dtr Dt : ℤ} (hDtr : Dtr ≠ 0) :
    process_cue_len Dr Dtr Dt = Dt := by
  rw [process_cue_len]
  split
  · have hq : (Dtr : ℚ) ≠ 0 := Int.cast_ne_zero.mpr hDtr
    by_cases hDt : Dt = 0
    · subst hDt
      norm_num [atempo_stretch_ms]
    · have hqt : (Dt : ℚ) ≠ 0 := Int.cast_ne_zero.mpr hDt
      have hs : (Dtr : ℚ) / ((Dtr : ℚ) / (Dt : ℚ)) = (Dt : ℚ) := by
        field_simp
      rw [atempo_stretch_ms, hs, Int.floor_intCast, min_self]
  · omega

/-- Counterexample to C3 as stated for every rendered buffer: a rendered
buffer longer than the target whose content is entirely below the silence
threshold trims to the empty buffer (`Dtr = 0`); the stretch ratio is then
`0` and no output of the target duration is produced (the source loop
`while remain < 0.5` does not even terminate on ratio 0; the total model
maps this run to an empty output buffer).  Either way the output duration
is not `D_t`. -/
theorem duration_match_counterexample :
    process_cue_len 3000 0 2000 = 0 ∧ (0 : ℤ) ≠ 2000 := by
  constructor
  · norm_num [process_cue_len, atempo_stretch_ms]
  · norm_num

/-- C3 amended.  For every target `D_t > 0` and rendered duration `D_r`,
provided trimming leaves a nonempty buffer (`D_tr > 0`), the per-cue
output duration is exactly `D_t` in both branches: stretch-and-truncate
when `D_r > D_t`, right-pad with silence otherwise. -/
theorem duration_match_exact (Dr Dtr Dt : ℤ) (_hDt : 0 < Dt)
    (hDtr : 0 < Dtr) : process_cue_len Dr Dtr Dt = Dt :=
  process_cue_len_eq_target (by omega)

/-- Witness for the amended C3: 3000 ms rendered, trimmed to 2500 ms,
target 2000 ms (stretch branch). -/
theorem duration_match_exact_witness :
    process_cue_len 3000 2500 2000 = 2000 :=
  duration_match_exact 3000 2500 2000 (by norm_num) (by norm_num)

/-!
Claim C4: total duration of the concatenated dubbed track.

The loop of `srt_to_voice` iterates the cues in file order (no sorting),
inserts `silent(get_duration_ms(sub.start - last_end))` whenever
`sub.start > last_end`, appends the duration-matched buffer, and advances
`last_end = sub.end`.  pydub concatenation adds lengths, so the track
duration is the sum of the segment durations.  The rendered and trimmed
buffer durations are external inputs (speech synthesis); the model takes
them as per-cue data `(cue, Dr, Dtr)`.
-/

/-- Total length in milliseconds of the audio segments appended by the
loop of `srt_to_voice`, starting from a given `last_end`. -/
def voice_total_ms (last_end : ℚ) : List (Cue × ℤ × ℤ) → ℤ
  | [] => 0
  | (sub, d) :: rest =>
      (if last_end < sub.start then get_duration_ms (sub.start - last_end)
        else 0) +
      process_cue_len d.1 d.2 (get_duration_ms (sub.stop - sub.start)) +
      voice_total_ms sub.stop rest

/-- Track length of `srt_to_voice`: the loop starts with
`last_end = timedelta(seconds=0)`. -/
def srt_to_voice_total (cueData : List (Cue × ℤ × ℤ)) : ℤ :=
  voice_total_ms 0 cueData


theorem MsAligned.add {a b : ℚ} (ha : MsAligned a) (hb : MsAligned b) :
    MsAligned (a + b) := by
  obtain ⟨m, hm⟩ := ha
  obtain ⟨n, hn⟩ := hb
  exact ⟨m + n, by push_cast; linarith⟩

/-- Telescoping of the voice loop: from any aligned `last_end` at or
before the next cue, over sorted non-overlapping aligned cues with
nonempty trimmed buffers, the appended length is the last end minus the
starting point, in milliseconds. -/
theorem voice_total_ms_eq :
    ∀ (rest : List (Cue × ℤ × ℤ)) (d : Cue × ℤ × ℤ) (last_end : ℚ),
      MsAligned last_end →
      last_end ≤ d.1.start →
      List.Chain' (fun a b : Cue × ℤ × ℤ => a.1.stop ≤ b.1.start) (d :: rest) →
      (∀ e ∈ d :: rest, MsAligned e.1.start ∧ MsAligned e.1.stop) →
      (∀ e ∈ d :: rest, e.2.2 ≠ 0) →
      voice_total_ms last_end (d :: rest) =
        get_duration_ms ((rest.getLastD d).1.stop - last_end) := by
  intro rest
  induction rest with
  | nil =>
      intro d last_end halign hle _ hal htrim
      obtain ⟨has, hao⟩ := hal d (by simp)
      obtain ⟨sub, dd⟩ := d
      simp only [voice_total_ms, List.getLastD]
      have hgap : (if last_end < sub.start then
          get_duration_ms (sub.start - last_end) else 0) =
          get_duration_ms (sub.start - last_end) := by
        split
        · rfl
        · have h0 : last_end = sub.start :=
            le_antisymm hle (le_of_not_lt (by assumption))
          rw [h0]
          simp [get_duration_ms]
      rw [hgap, process_cue_len_eq_target (htrim (sub, dd) (by simp)),
        add_zero, get_duration_ms_add (has.sub halign) (hao.sub has)]
      congr 1
      ring
  | cons e rest2 ih =>
      intro d last_end halign hle hchain hal htrim
      have hde : d.1.stop ≤ e.1.start := (List.chain'_cons.mp hchain).1
      have hchain2 : List.Chain'
          (fun a b : Cue × ℤ × ℤ => a.1.stop ≤ b.1.start) (e :: rest2) :=
        (List.chain'_cons.mp hchain).2
      obtain ⟨has, hao⟩ := hal d (by simp)
      have hal2 : ∀ x ∈ e :: rest2, MsAligned x.1.start ∧ MsAligned x.1.stop :=
        fun x hx => hal x (List.mem_cons_of_mem _ hx)
      have htrim2 : ∀ x ∈ e :: rest2, x.2.2 ≠ 0 :=
        fun x hx => htrim x (List.mem_cons_of_mem _ hx)
      have hrec := ih e d.1.stop hao hde hchain2 hal2 htrim2
      have hL : MsAligned ((rest2.getLastD e).1.stop) :=
        (hal2 _ (List.getLastD_mem_cons rest2 e)).2
      obtain ⟨sub, dd⟩ := d
      simp only at hde hrec hL has hao
      have hunfold : voice_total_ms last_end ((sub, dd) :: e :: rest2) =
          (if last_end < sub.start then
            get_duration_ms (sub.start - last_end) else 0) +
          process_cue_len dd.1 dd.2 (get_duration_ms (sub.stop - sub.start)) +
          voice_total_ms sub.stop (e :: rest2) := rfl
      have hgap : (if last_end < sub.start then
          get_duration_ms (sub.start - last_end) else 0) =
          get_duration_ms (sub.start - last_end) := by
        split
        · rfl
        · have h0 : last_end = sub.start :=
            le_antisymm hle (le_of_not_lt (by assumption))
          rw [h0]
          simp [get_duration_ms]
      rw [hunfold, hgap,
        process_cue_len_eq_target (htrim (sub, dd) (by simp)), hrec,
        List.getLastD_cons,
        get_duration_ms_add (has.sub halign) (hao.sub has),
        get_duration_ms_add ((has.sub halign).add (hao.sub has)) (hL.sub hao)]
      congr 1
      ring

/-- Counterexample to C4 as stated for every cue list: with the
overlapping cues `(0,10)` and `(5,6)` (second starts before the first
ends) and per-cue buffers of exactly the target durations, no inter-cue
silence is inserted but both full buffers are appended, so the track is
`11000` ms while the last cue ends at `6000` ms. -/
theorem voice_total_counterexample :
    srt_to_voice_total [(⟨0, 10⟩, 10000, 10000), (⟨5, 6⟩, 1000, 1000)] ≠
      get_duration_ms 6 := by
  norm_num [srt_to_voice_total, voice_total_ms, process_cue_len,
    atempo_stretch_ms, get_duration_ms]

/-- C4 amended.  For every nonempty cue list that is sorted and
non-overlapping (each cue starts at or after the previous end, the first
at or after 0), whose cues each have positive duration, whose timestamps
sit on the millisecond grid, and whose per-cue trimmed buffers are
nonempty, the concatenated track duration in milliseconds equals exactly
the last cue end: the inter-cue silence fill plus the exact per-cue
buffers telescope.  Overlapping cues break the telescoping, as the
counterexample shows.  The positive-duration hypothesis confines the
statement to where the model is faithful: on a zero-duration cue the
source raises ZeroDivisionError (`speed = len(seg)/target_len` with
`target_len = 0`) and on a negative-duration cue `ffmpeg_speedup`
diverges, so no track is produced on those inputs. -/
theorem voice_track_total_duration (d : Cue × ℤ × ℤ)
    (rest : List (Cue × ℤ × ℤ))
    (hfirst : 0 ≤ d.1.start)
    (hchain : List.Chain' (fun a b : Cue × ℤ × ℤ => a.1.stop ≤ b.1.start)
      (d :: rest))
    (_hdur : ∀ e ∈ d :: rest, e.1.start < e.1.stop)
    (hal : ∀ e ∈ d :: rest, MsAligned e.1.start ∧ MsAligned e.1.stop)
    (htrim : ∀ e ∈ d :: rest, e.2.2 ≠ 0) :
    srt_to_voice_total (d :: rest) =
      get_duration_ms ((rest.getLastD d).1.stop) := by
  rw [srt_to_voice_total,
    voice_total_ms_eq rest d 0 ⟨0, by norm_num⟩ hfirst hchain hal htrim,
    sub_zero]

/-- Witness for the amended C4: cues `(0,1)` and `(2,3)` seconds with
rendered/trimmed buffer durations `(500,300)` and `(1200,1100)` ms; the
track comes out at exactly 3000 ms. -/
theorem voice_track_total_duration_witness :
    srt_to_voice_total [(⟨0, 1⟩, 500, 300), (⟨2, 3⟩, 1200, 1100)] =
      get_duration_ms 3 := by
  have h := voice_track_total_duration (⟨0, 1⟩, 500, 300)
    [(⟨2, 3⟩, 1200, 1100)] (by norm_num)
    (by simp)
    (by
      rintro e he
      simp only [List.mem_cons, List.mem_singleton] at he
      rcases he with h | h | h
      · subst h; norm_num
      · subst h; norm_num
      · cases h)
    (by
      rintro e he
      simp only [List.mem_cons, List.mem_singleton] at he
      rcases he with h | h | h
      · subst h
        exact ⟨⟨0, by norm_num⟩, ⟨1000, by norm_num⟩⟩
      · subst h
        exact ⟨⟨2000, by norm_num⟩, ⟨3000, by norm_num⟩⟩
      · cases h)
    (by
      rintro e he
      simp only [List.mem_cons, List.mem_singleton] at he
      rcases he with h | h | h
      · subst h; norm_num
      · subst h; norm_num
      · cases h)
  simpa [List.getLastD] using h

/-!
Padding tool, from `srt_padding.py` (`pad_srt`).

The Python loop mutates the cue list in place: when cue `i` is processed,
`subs[i-1].end` already holds the padded value of the previous cue while
`subs[i+1].start` is still the original start of the next cue.  The model
threads the padded previous end through the recursion (0 before the first
cue, as in the source).
-/

/-- The clamp used for tail padding: the next original start, or one hour
past the own end for the last cue (`sub.end + timedelta(hours=1)`). -/
def nextBound (sub : Cue) : List Cue → ℚ
  | next :: _ => next.start
  | [] => sub.stop + 3600

/-- The loop body of `pad_srt`: head padding clamped at 0 and at the
already padded previous end, tail padding clamped at `nextBound`. -/
def padLoop (pad : ℚ) : ℚ → List Cue → List Cue
  | _, [] => []
  | prevEnd, sub :: rest =>
      let new_start := max (max 0 (sub.start - pad)) prevEnd
      let new_end := min (sub.stop + pad) (nextBound sub rest)
      ⟨new_start, new_end⟩ :: padLoop pad new_end rest

/-- `pad_srt` from `srt_padding.py`, restricted to the timestamp
transformation. -/
def pad_srt (pad : ℚ) (subs : List Cue) : List Cue := padLoop pad 0 subs

theorem padLoop_invariants (pad : ℚ) :
    ∀ (subs : List Cue) (p : ℚ),
      ((padLoop pad p subs).Forall fun c => 0 ≤ c.start) ∧
      (∀ y ∈ (padLoop pad p subs).head?, p ≤ y.start) ∧
      List.Chain' (fun a b : Cue => a.stop ≤ b.start) (padLoop pad p subs) ∧
      List.Forall₂ (fun a b : Cue => a.stop ≤ b.start)
        (padLoop pad p subs).dropLast subs.tail := by
  intro subs
  induction subs with
  | nil =>
      intro p
      refine ⟨trivial, ?_, List.chain'_nil, List.Forall₂.nil⟩
      intro y hy
      simp [padLoop] at hy
  | cons sub rest ih =>
      intro p
      have hstart0 : (0 : ℚ) ≤ max (max 0 (sub.start - pad)) p :=
        le_trans (le_max_left 0 (sub.start - pad)) (le_max_left _ p)
      have hstartp : p ≤ max (max 0 (sub.start - pad)) p := le_max_right _ p
      obtain ⟨iha, ihb, ihc, ihd⟩ :=
        ih (min (sub.stop + pad) (nextBound sub rest))
      have hunfold : padLoop pad p (sub :: rest) =
          ⟨max (max 0 (sub.start - pad)) p,
            min (sub.stop + pad) (nextBound sub rest)⟩ ::
            padLoop pad (min (sub.stop + pad) (nextBound sub rest)) rest := rfl
      refine ⟨?_, ?_, ?_, ?_⟩
      · rw [hunfold, List.forall_cons]
        exact ⟨hstart0, iha⟩
      · intro y hy
        rw [hunfold, List.head?_cons, Option.mem_def,
          Option.some.injEq] at hy
        rw [← hy]
        exact hstartp
      · rw [hunfold, List.chain'_cons']
        exact ⟨fun y hy => ihb y hy, ihc⟩
      · match rest, ihd with
        | [], _ => simp [hunfold, padLoop]
        | next :: rest2, ihd =>
            rw [hunfold, List.tail_cons]
            match hL : padLoop pad
                (min (sub.stop + pad) (nextBound sub (next :: rest2)))
                (next :: rest2) with
            | [] => exact absurd hL (by simp [padLoop])
            | cnext :: L2 =>
                rw [List.dropLast_cons₂]
                refine List.Forall₂.cons ?_ ?_
                · exact le_trans (min_le_right _ _) le_rfl
                · rw [hL] at ihd
                  simpa using ihd

/-- C10.  For every subtitle list and pad value: every padded cue starts
at or after time 0; each padded start is at least the preceding output
cue's already padded end (so consecutive output cues never overlap); and
each non-final padded end is at most the following cue's original start. -/
theorem pad_srt_invariants (pad : ℚ) (subs : List Cue) :
    ((pad_srt pad subs).Forall fun c => 0 ≤ c.start) ∧
      List.Chain' (fun a b : Cue => a.stop ≤ b.start) (pad_srt pad subs) ∧
      List.Forall₂ (fun a b : Cue => a.stop ≤ b.start)
        (pad_srt pad subs).dropLast subs.tail := by
  obtain ⟨ha, _, hc, hd⟩ := padLoop_invariants pad subs 0
  exact ⟨ha, hc, hd⟩
